import Mathlib

/-!
Verification of the dvm upgrade pipeline (src/commands/upgrade.rs) and the
cleanup flow (src/commands/clean.rs) against the natural-language spec.

The Rust code is shallowly embedded: pure helpers become Lean functions on
`String`/`List Char`; the effectful pipeline becomes a pure function from an
explicit environment (network responses, child-process outcomes, paths) to a
result together with a trace of observable events (network calls, filesystem
writes, spawned processes, progress messages).  The semantics of the external
`semver_parser` crate (version parsing, formatting and precedence ordering)
is not part of this repository's sources and is modelled from the spec's
description of `VersionSpecifier`.
-/

namespace Dvm

/-- Host platform; the Rust source selects behaviour with compile-time
`cfg!` tests, which the embedding turns into an explicit parameter. -/
inductive Platform
  | windows
  | macos
  | linux
deriving DecidableEq

/-- ARCHIVE_NAME constant of upgrade.rs: the platform archive file name. -/
def ARCHIVE_NAME : Platform → String
  | .windows => "deno-x86_64-pc-windows-msvc.zip"
  | .macos => "deno-x86_64-apple-darwin.zip"
  | .linux => "deno-x86_64-unknown-linux-gnu.zip"

/-- Modelled from the spec: a pre-release/build identifier of a semantic
version (numeric or alphanumeric), as in the external semver_parser crate
whose sources are not part of this repository. -/
inductive Ident
  | num (n : Nat)
  | alphanum (s : String)
deriving DecidableEq

/-- Modelled from the spec: `VersionSpecifier`, "a semantic-version value
(major.minor.patch, optionally with pre-release/build metadata)". -/
structure Version where
  major : Nat
  minor : Nat
  patch : Nat
  pre : List Ident
  build : List Ident
deriving DecidableEq

/- ----------------------------------------------------------------
Character/string helpers used by the embedded parsing functions.
---------------------------------------------------------------- -/

/-- Split a character list at the first occurrence of `sep`; the second
component is `none` when `sep` does not occur. -/
def splitFirstOn (sep : Char) : List Char → List Char × Option (List Char)
  | [] => ([], none)
  | c :: r =>
    if c = sep then ([], some r)
    else
      let p := splitFirstOn sep r
      (c :: p.1, p.2)

/-- Split a character list on every occurrence of `sep`. -/
def splitOnChar (sep : Char) : List Char → List (List Char)
  | [] => [[]]
  | c :: r =>
    if c = sep then [] :: splitOnChar sep r
    else
      match splitOnChar sep r with
      | [] => [[c]]
      | a :: rest => (c :: a) :: rest

/-- Numeric value of a decimal digit character. -/
def digitVal (c : Char) : Nat := c.toNat - 48

/-- Parse a non-empty all-digit character list as a natural number. -/
def parseNatL (cs : List Char) : Option Nat :=
  if cs.isEmpty then none
  else if cs.all Char.isDigit then some (cs.foldl (fun n c => n * 10 + digitVal c) 0)
  else none

/-- Modelled from the spec: parse one dot-separated pre-release/build
identifier (numeric if all digits, otherwise alphanumeric; empty is
invalid). -/
def parseIdent (cs : List Char) : Option Ident :=
  if cs.isEmpty then none
  else if cs.all Char.isDigit then
    some (.num (cs.foldl (fun n c => n * 10 + digitVal c) 0))
  else some (.alphanum (String.mk cs))

/-- Sequence a list of options. -/
def seqOpt : List (Option α) → Option (List α)
  | [] => some []
  | none :: _ => none
  | some a :: r => (seqOpt r).map (fun l => a :: l)

/-- Modelled from the spec: parse a dot-separated identifier list. -/
def parseIdents (cs : List Char) : Option (List Ident) :=
  seqOpt ((splitOnChar '.' cs).map parseIdent)

/-- Modelled from the spec: parse the dotted version core together with
the optional pre-release and build identifier lists. -/
def semverFromParts (core : List Char) (preP buildP : Option (List Char)) : Option Version :=
  match splitOnChar '.' core with
  | [a, b, c] =>
    match parseNatL a, parseNatL b, parseNatL c with
    | some x, some y, some z =>
      match (match preP with | none => some [] | some pl => parseIdents pl),
            (match buildP with | none => some [] | some bl => parseIdents bl) with
      | some pr, some bu => some ⟨x, y, z, pr, bu⟩
      | _, _ => none
    | _, _, _ => none
  | _ => none

/-- Modelled from the spec: core of `semver_parse` on a character list.
The external semver_parser crate is not in this repository's sources; the
spec describes the parse as "major.minor.patch, optionally with
pre-release/build metadata" (build after the first '+', pre-release after
the first '-' of what precedes it), with malformed input a distinct
error. -/
def semver_parseL (cs : List Char) : Option Version :=
  semverFromParts (splitFirstOn '-' (splitFirstOn '+' cs).1).1
    ((splitFirstOn '-' (splitFirstOn '+' cs).1).2) ((splitFirstOn '+' cs).2)

/-- Modelled from the spec: `semver_parse` (semver_parser::version::parse),
returning `none` on malformed input. -/
def semver_parse (s : String) : Option Version :=
  semver_parseL s.toList

/-- Decimal digit character for a value below ten. -/
def digitChar (d : Nat) : Char := Char.ofNat (48 + d)

/-- Decimal digits of `n`, least significant first, with explicit fuel so
the definition reduces structurally. -/
def natToRevDigits : Nat → Nat → List Char
  | 0, _ => []
  | fuel + 1, n =>
    if n < 10 then [digitChar n]
    else digitChar (n % 10) :: natToRevDigits fuel (n / 10)

/-- Decimal rendering of a natural number. -/
def natToStr (n : Nat) : String := String.mk (natToRevDigits (n + 1) n).reverse

/-- Modelled from the spec: Display of one identifier. -/
def identToStr : Ident → String
  | .num n => natToStr n
  | .alphanum s => s

/-- Join strings with dots between them. -/
def joinDotted : List String → String
  | [] => ""
  | [s] => s
  | s :: r => s ++ "." ++ joinDotted r

/-- Modelled from the spec: Display of a Version, "major.minor.patch"
followed by "-pre" and "+build" when present (semver rendering). -/
def Version.toStr (v : Version) : String :=
  natToStr v.major ++ "." ++ natToStr v.minor ++ "." ++ natToStr v.patch
    ++ (if v.pre.isEmpty then "" else "-" ++ joinDotted (v.pre.map identToStr))
    ++ (if v.build.isEmpty then "" else "+" ++ joinDotted (v.build.map identToStr))

/-- ASCII whitespace characters (the ones str::trim removes that can
occur in the executable's version banner). -/
def isWs (c : Char) : Bool :=
  c == ' ' || c == '\t' || c == '\n' || c == '\r'

/-- Rust str::trim on a character list: strip leading and trailing
whitespace. -/
def trimL (cs : List Char) : List Char :=
  ((cs.dropWhile isWs).reverse.dropWhile isWs).reverse

/-- Rust str::trim. -/
def strTrim (s : String) : String := String.mk (trimL s.toList)

/-- Total-order comparison of strings, from the decidable lexicographic
order on `String`. -/
def strCompare (a b : String) : Ordering :=
  if a < b then .lt else if b < a then .gt else .eq

/-- Modelled from the spec: precedence comparison of two identifiers
(numeric below alphanumeric, numerics numerically, alphanumerics
lexically). -/
def identCompare : Ident → Ident → Ordering
  | .num a, .num b => compare a b
  | .num _, .alphanum _ => .lt
  | .alphanum _, .num _ => .gt
  | .alphanum a, .alphanum b => strCompare a b

/-- Modelled from the spec: lexicographic comparison of identifier lists,
a strict prefix comparing below. -/
def identListCompare : List Ident → List Ident → Ordering
  | [], [] => .eq
  | [], _ :: _ => .lt
  | _ :: _, [] => .gt
  | a :: as, b :: bs =>
    match identCompare a b with
    | .eq => identListCompare as bs
    | o => o

/-- Modelled from the spec: pre-release precedence; a release (empty
pre-release list) compares above any pre-release. -/
def preCompare : List Ident → List Ident → Ordering
  | [], [] => .eq
  | [], _ :: _ => .gt
  | _ :: _, [] => .lt
  | a :: as, b :: bs => identListCompare (a :: as) (b :: bs)

/-- Modelled from the spec: total-order comparison of versions ("Comparable
with total ordering for equality/is-newer-than decisions"): major, minor,
patch numerically, then pre-release precedence. -/
def versionCompare (a b : Version) : Ordering :=
  match compare a.major b.major with
  | .eq =>
    match compare a.minor b.minor with
    | .eq =>
      match compare a.patch b.patch with
      | .eq => preCompare a.pre b.pre
      | o => o
    | o => o
  | o => o

/- ----------------------------------------------------------------
find_version (upgrade.rs): first match of the regex
  v(\d+\.\d+\.\d+)<space>
in the fetched page text, with the leading 'v' and the trailing space
sliced off (`mat[1..mat.len()-1]`).  All matched characters are ASCII, so
Rust's byte slicing coincides with character slicing.
---------------------------------------------------------------- -/

/-- One `\d+` segment: a non-empty maximal digit run at the head of `cs`,
together with the remainder.  Greedy `\d+` followed by a mandatory
non-digit literal ('.' or ' ') always matches the maximal run, so the
regex engine's backtracking collapses to this. -/
def matchSeg (cs : List Char) : Option (List Char × List Char) :=
  let d := cs.takeWhile Char.isDigit
  if d.isEmpty then none else some (d, cs.dropWhile Char.isDigit)

/-- Match of the regex `v(\d+\.\d+\.\d+) ` anchored at the head of `cs`,
returning the full matched text. -/
def matchAt : List Char → Option (List Char)
  | [] => none
  | c :: rest =>
    if c ≠ 'v' then none
    else
      match matchSeg rest with
      | none => none
      | some (d1, r1) =>
        match r1 with
        | [] => none
        | c1 :: r2 =>
          if c1 ≠ '.' then none
          else
            match matchSeg r2 with
            | none => none
            | some (d2, r3) =>
              match r3 with
              | [] => none
              | c2 :: r4 =>
                if c2 ≠ '.' then none
                else
                  match matchSeg r4 with
                  | none => none
                  | some (d3, r5) =>
                    match r5 with
                    | [] => none
                    | c3 :: _ =>
                      if c3 ≠ ' ' then none
                      else some ('v' :: (d1 ++ '.' :: d2 ++ '.' :: d3 ++ [' ']))

/-- Leftmost match of the pattern in `cs` (Regex::find semantics). -/
def findFirst : List Char → Option (List Char)
  | [] => none
  | c :: rest =>
    match matchAt (c :: rest) with
    | some m => some m
    | none => findFirst rest

/-- find_version of upgrade.rs: leftmost regex match in the page text,
stripped of its first and last character ('v' and the space). -/
def find_version (text : String) : Option String :=
  match findFirst text.toList with
  | some m => some (String.mk (m.drop 1).dropLast)
  | none => none

/-- A non-empty all-digit character list (one `\d+` group). -/
def DigitsNE (d : List Char) : Prop := d ≠ [] ∧ ∀ c ∈ d, c.isDigit = true

/-- Spec-level reading of one occurrence of the version token: `cs` starts
with a literal 'v', then the token `s` = digits '.' digits '.' digits,
then a space. -/
def TokenFrom (cs s : List Char) : Prop :=
  ∃ d1 d2 d3 rest, DigitsNE d1 ∧ DigitsNE d2 ∧ DigitsNE d3 ∧
    s = d1 ++ '.' :: d2 ++ '.' :: d3 ∧ cs = 'v' :: s ++ ' ' :: rest

/-- A version token occurs at offset `i` of `cs`. -/
def TokenAt (cs : List Char) (i : Nat) : Prop := ∃ s, TokenFrom (cs.drop i) s

/- ----------------------------------------------------------------
Path helpers (std::path), modelling only what the two commands use.
Paths are plain strings with '/' as separator on every platform; the
separator choice is irrelevant to the claims, which treat paths as
opaque names.
---------------------------------------------------------------- -/

/-- PathBuf::join with a relative component. -/
def pathJoin (a b : String) : String := a ++ "/" ++ b

/-- Split into (directory part, final component). -/
def fileNameSplit (cs : List Char) : List Char × List Char :=
  let name := (cs.reverse.takeWhile (fun c => c ≠ '/')).reverse
  (cs.take (cs.length - name.length), name)

/-- Rust Path::file_stem on a final component: the part before the last
dot, except that a lone leading dot does not start an extension. -/
def stemOf (name : List Char) : List Char :=
  let rext := name.reverse.takeWhile (fun c => c ≠ '.')
  if rext.length = name.length then name
  else
    let rstem := name.reverse.drop (rext.length + 1)
    if rstem.isEmpty then name else rstem.reverse

/-- Rust Path::with_extension: replace (or, for an empty argument, drop)
the extension of the final component. -/
def withExtension (path ext : String) : String :=
  let ps := fileNameSplit path.toList
  String.mk (ps.1 ++ stemOf ps.2) ++ (if ext.isEmpty then "" else "." ++ ext)

/-- Rust Path::extension of the final component. -/
def archiveExt (name : String) : Option String :=
  let n := (fileNameSplit name.toList).2
  let rext := n.reverse.takeWhile (fun c => c ≠ '.')
  if rext.length = n.length then none
  else if (n.reverse.drop (rext.length + 1)).isEmpty then none
  else some (String.mk rext.reverse)

/- ----------------------------------------------------------------
Observable effects of the upgrade pipeline.
---------------------------------------------------------------- -/

/-- Observable events of one upgrade_command run, in order. -/
inductive Event
  | msgAlreadyInstalled
  | msgMostRecent
  | fetchLatest
  | fetchArchive (url : String)
  | createVersionDir (dir : String)
  | writeFile (path : String)
  | spawnUnpack
  | setPermissions (path : String)
  | runCheckExe (path : String)
  | fsRename (src dst : String)
  | fsRemove (path : String)
  | fsCopy (src dst : String)
deriving DecidableEq

/-- Network calls: the latest-release page GET and the archive GET. -/
def isNetworkEvent : Event → Bool
  | .fetchLatest => true
  | .fetchArchive _ => true
  | _ => false

/-- Filesystem-changing events. -/
def isFsChangeEvent : Event → Bool
  | .createVersionDir _ => true
  | .writeFile _ => true
  | .setPermissions _ => true
  | .fsRename _ _ => true
  | .fsRemove _ => true
  | .fsCopy _ _ => true
  | _ => false

/-- Events produced by the unpack stage (ArchiveUnpacker). -/
def isUnpackEvent : Event → Bool
  | .createVersionDir _ => true
  | .writeFile _ => true
  | .spawnUnpack => true
  | _ => false

/-- Events produced by the replace stage (AtomicReplacer). -/
def isReplaceEvent : Event → Bool
  | .fsRename _ _ => true
  | .fsRemove _ => true
  | .fsCopy _ _ => true
  | _ => false

/-- How one run of upgrade_command terminates.  In the source, success is
`Ok(())` (exit status zero); every other constructor ends the process with
a non-zero status (`std::process::exit(1)`, a propagated `Err`, or a
panicking `assert!`/`unwrap`). -/
inductive UpgradeResult
  | success
  | invalidVersionError
  | networkError
  | notFoundError
  | panicUnwrap
  | versionNotFoundError
  | downloadFailedError
  | extractionError
  | verificationError
deriving DecidableEq

/-- Process exit status of each outcome: zero exactly on success. -/
def UpgradeResult.exitsZero : UpgradeResult → Bool
  | .success => true
  | _ => false

/-- The archive GET's outcome, as seen by download_package: a transport
failure or an HTTP status with body bytes. -/
inductive ArchiveResp
  | transportError
  | resp (status : Nat) (body : List Nat)

/-- The latest-release page GET's outcome, as seen by
get_latest_version. -/
inductive LatestResp
  | transportError
  | page (text : String)

/-- Captured output of the extracted executable run with "-V": its exit
status and its standard output, already decoded (`none` models output
that is not valid UTF-8; the byte-level UTF-8 decoder is std library
code abstracted here). -/
structure ProcOutput where
  exitSuccess : Bool
  stdoutUtf8 : Option String

/-- The environment a single upgrade_command run interacts with: the
compiled-in current version, both network responses, the active
executable's path (`which("deno")`), the dvm root, and the outcomes of
the two child processes. -/
structure Env where
  currentVersion : Version
  latest : LatestResp
  archive : ArchiveResp
  oldExePath : String
  dvmRoot : String
  unpackChildSuccess : Bool
  exeExistsAfterUnpack : Bool
  checkOutput : ProcOutput

/- ----------------------------------------------------------------
The pipeline stages of upgrade.rs.
---------------------------------------------------------------- -/

/-- compose_url_to_exec of upgrade.rs (Url::parse always succeeds on this
well-formed https URL). -/
def compose_url_to_exec (p : Platform) (v : Version) : String :=
  "https://github.com/denoland/deno/releases/download/v" ++ v.toStr ++ "/" ++ ARCHIVE_NAME p

/-- Status classification of download_package: transport failure aborts;
a 404 aborts as the version-not-found case; any other 4xx/5xx aborts as a
failed download; otherwise the body is returned.  The source checks 404
before the generic 4xx test, and its `is_success` test only prints. -/
def classify_download : ArchiveResp → Except UpgradeResult (List Nat)
  | .transportError => .error .networkError
  | .resp status body =>
    if status = 404 then .error .versionNotFoundError
    else if (400 ≤ status ∧ status ≤ 499) ∨ (500 ≤ status ∧ status ≤ 599) then
      .error .downloadFailedError
    else .ok body

/-- get_latest_version of upgrade.rs: GET the releases page, find the
first version token, then `semver_parse(..).unwrap()`.  `panicUnwrap` is
the unwrap panicking on a token the version parser rejects. -/
inductive GLVResult
  | netErr
  | findErr
  | panicUnwrap
  | ok (v : Version)
deriving DecidableEq

/-- get_latest_version's outcome for a given page response. -/
def get_latest_version : LatestResp → GLVResult
  | .transportError => .netErr
  | .page t =>
    match find_version t with
    | none => .findErr
    | some s =>
      match semver_parse s with
      | none => .panicUnwrap
      | some v => .ok v

/-- The two `assert!`s closing unpack: the child process must have exited
successfully and the destination executable must exist. -/
def unpackAsserts (childSuccess exeExists : Bool) (exePath : String)
    (evs : List Event) : Except UpgradeResult String × List Event :=
  if childSuccess = false then (.error .extractionError, evs)
  else if exeExists = false then (.error .extractionError, evs)
  else (.ok exePath, evs)

/-- The version directory for `v` below the dvm root. -/
def dvmVersionDir (root : String) (v : Version) : String := pathJoin root v.toStr

/-- The destination executable path inside the version directory:
`dvm_dir.join("deno").with_extension(exe_ext)` in the source; as the file
name "deno" has no dot, with_extension yields "deno.exe" on Windows and
"deno" elsewhere. -/
def exePathOf (p : Platform) (root : String) (v : Version) : String :=
  pathJoin (dvmVersionDir root v) (if p = .windows then "deno.exe" else "deno")

/-- unpack of upgrade.rs.  The version directory is created first; the
archive extension (of the compile-time ARCHIVE_NAME) picks the branch:
"gz" creates the destination file and pipes the bytes through gunzip;
"zip" writes the archive to disk and spawns the platform extraction
command (powershell on Windows, unzip elsewhere — same observable events);
any other extension panics before any extraction is attempted (as does
`extension().unwrap()` when there is no extension at all). -/
def unpack (p : Platform) (archiveName root : String) (childSuccess exeExists : Bool)
    (v : Version) : Except UpgradeResult String × List Event :=
  match archiveExt archiveName with
  | none => (.error .extractionError, [.createVersionDir (dvmVersionDir root v)])
  | some ext =>
    if ext = "gz" then
      unpackAsserts childSuccess exeExists (exePathOf p root v)
        [.createVersionDir (dvmVersionDir root v), .writeFile (exePathOf p root v),
         .spawnUnpack]
    else if ext = "zip" then
      unpackAsserts childSuccess exeExists (exePathOf p root v)
        [.createVersionDir (dvmVersionDir root v),
         .writeFile (pathJoin (dvmVersionDir root v) "deno.zip"), .spawnUnpack]
    else (.error .extractionError, [.createVersionDir (dvmVersionDir root v)])

/-- check_exe of upgrade.rs: run the extracted executable with "-V";
non-UTF8 output is an error (`String::from_utf8(..)?`), a failing exit
status or a trimmed stdout differing from "deno <version>" is a failed
assert.  The spec classes all three as VerificationError. -/
def check_exe (out : ProcOutput) (expected : Version) : Except UpgradeResult Unit :=
  match out.stdoutUtf8 with
  | none => .error .verificationError
  | some s =>
    if out.exitSuccess = false then .error .verificationError
    else if strTrim s = "deno " ++ expected.toStr then .ok ()
    else .error .verificationError

/-- replace_exe of upgrade.rs: on Windows rename the active executable to
its ".old.exe" sibling (a running executable cannot be removed there), on
other platforms remove it; then copy — not move — the new executable into
the active path. -/
def replace_exe (p : Platform) (newPath oldPath : String) : List Event :=
  (if p = .windows then [Event.fsRename oldPath (withExtension oldPath "old.exe")]
   else [Event.fsRemove oldPath]) ++ [Event.fsCopy newPath oldPath]

/-- The fetch → unpack → set-permissions → verify → (replace) tail of
upgrade_command, run once the target version is decided. -/
def proceed (p : Platform) (env : Env) (dry_run : Bool) (v : Version) :
    UpgradeResult × List Event :=
  match classify_download env.archive with
  | .error e => (e, [.fetchArchive (compose_url_to_exec p v)])
  | .ok _ =>
    match unpack p (ARCHIVE_NAME p) env.dvmRoot env.unpackChildSuccess
        env.exeExistsAfterUnpack v with
    | (.error e, ev2) => (e, .fetchArchive (compose_url_to_exec p v) :: ev2)
    | (.ok newPath, ev2) =>
      match check_exe env.checkOutput v with
      | .error e =>
        (e, .fetchArchive (compose_url_to_exec p v) :: ev2
          ++ [.setPermissions newPath, .runCheckExe newPath])
      | .ok _ =>
        if dry_run then
          (.success, .fetchArchive (compose_url_to_exec p v) :: ev2
            ++ [.setPermissions newPath, .runCheckExe newPath])
        else
          (.success, .fetchArchive (compose_url_to_exec p v) :: ev2
            ++ [.setPermissions newPath, .runCheckExe newPath]
            ++ replace_exe p newPath env.oldExePath)

/-- upgrade_command of upgrade.rs.  An explicit version is parsed
(`InvalidVersionError` on malformed input) and, unless forced, compared
for equality with the current version; with no explicit version the
latest release is resolved and, unless forced, required to be newer than
the current version (`current_version >= latest_version` short-circuits). -/
def upgrade_command (p : Platform) (env : Env) (dry_run force : Bool)
    (version : Option String) : UpgradeResult × List Event :=
  match version with
  | some s =>
    match semver_parse s with
    | none => (.invalidVersionError, [])
    | some ver =>
      if force = false ∧ env.currentVersion = ver then (.success, [.msgAlreadyInstalled])
      else proceed p env dry_run ver
  | none =>
    match get_latest_version env.latest with
    | .netErr => (.networkError, [.fetchLatest])
    | .findErr => (.notFoundError, [.fetchLatest])
    | .panicUnwrap => (.panicUnwrap, [.fetchLatest])
    | .ok latest =>
      if force = false ∧ versionCompare env.currentVersion latest ≠ .lt then
        (.success, [.fetchLatest, .msgMostRecent])
      else
        ((proceed p env dry_run latest).1, .fetchLatest :: (proceed p env dry_run latest).2)

/- ----------------------------------------------------------------
Filesystem semantics of events: file contents by path.  Contents written
by the unpack stage are abstracted (the claims only speak about which
paths change); the replace-stage operations move/remove/copy contents
faithfully.
---------------------------------------------------------------- -/

/-- Effect of one event on the file contents. -/
def applyEvent (fs : String → Option String) : Event → String → Option String
  | .fsRename src dst => fun q => if q = dst then fs src else if q = src then none else fs q
  | .fsRemove tgt => fun q => if q = tgt then none else fs q
  | .fsCopy src dst => fun q => if q = dst then fs src else fs q
  | .writeFile tgt => fun q => if q = tgt then some "" else fs q
  | _ => fs

/-- Effect of an event list, first event first. -/
def runEvents (fs : String → Option String) (evs : List Event) : String → Option String :=
  evs.foldl applyEvent fs

/-- Does this event change the file at path `q`? -/
def writesPath (e : Event) (q : String) : Bool :=
  match e with
  | .fsRename src dst => q == dst || q == src
  | .fsRemove tgt => q == tgt
  | .fsCopy _ dst => q == dst
  | .writeFile tgt => q == tgt
  | _ => false

/- ----------------------------------------------------------------
clean.rs: the cleanup flow over the version-mapping store.  The DvmMeta
type and its three operations live outside src/ (only clean.rs, their
caller, is present), so they are modelled from the spec (§4.7).
---------------------------------------------------------------- -/

/-- Modelled from the spec: one MappingEntry, associating a declared
requirement with the version believed to satisfy it. -/
structure VersionMapping where
  required : String
  version : String
deriving DecidableEq

/-- Modelled from the spec: the persistent mapping store; `versions` is
the list of mapping entries DvmMeta holds. -/
structure DvmMeta where
  versions : List VersionMapping
deriving DecidableEq

/-- Modelled from the spec: `is_valid_mapping` is true iff the entry's
resolved version directory exists and is structurally intact; `dirOk`
is that filesystem oracle. -/
def is_valid_mapping (dirOk : String → Bool) (m : VersionMapping) : Bool :=
  dirOk m.version

/-- Modelled from the spec: `delete_version_mapping` removes the entry
for that requirement; idempotent (a no-op when absent). -/
def delete_version_mapping (meta : DvmMeta) (required : String) : DvmMeta :=
  ⟨meta.versions.filter (fun v => v.required != required)⟩

/-- Observable calls the cleanup flow makes on the store. -/
inductive CleanEvent
  | deleteMapping (required : String)
  | cleanFilesCall
deriving DecidableEq

/-- The filter_map collecting the requirements of currently-invalid
mappings (clean.rs lines 12-22). -/
def collectInvalidRequires (dirOk : String → Bool) (meta : DvmMeta) : List String :=
  meta.versions.filterMap
    (fun v => if is_valid_mapping dirOk v then none else some v.required)

/-- exec of clean.rs: if the version cache root is missing, exit 0
immediately; otherwise collect the invalid mappings' requirements,
delete each such mapping, then call clean_files() (modelled from the
spec as an opaque store operation, tracked as an event).  Returns the
process exit status, the final store, and the calls made. -/
def clean_exec (cacheFolderExists : Bool) (dirOk : String → Bool) (meta : DvmMeta) :
    Nat × DvmMeta × List CleanEvent :=
  if cacheFolderExists = false then (0, meta, [])
  else
    let requires := collectInvalidRequires dirOk meta
    let meta2 := requires.foldl (fun m r => delete_version_mapping m r) meta
    (0, meta2, requires.map CleanEvent.deleteMapping ++ [CleanEvent.cleanFilesCall])

/- ----------------------------------------------------------------
Supporting lemmas.
---------------------------------------------------------------- -/

theorem unpackAsserts_snd (cs ee : Bool) (path : String) (evs : List Event) :
    (unpackAsserts cs ee path evs).2 = evs := by
  cases cs <;> cases ee <;> simp [unpackAsserts]

theorem unpackAsserts_ok_iff (cs ee : Bool) (path : String) (evs : List Event) :
    (unpackAsserts cs ee path evs).1 = .ok path ↔ cs = true ∧ ee = true := by
  cases cs <;> cases ee <;> simp [unpackAsserts]

theorem unpackAsserts_fst_err (cs ee : Bool) (path : String) (evs : List Event)
    (h : cs = false ∨ ee = false) :
    (unpackAsserts cs ee path evs).1 = .error .extractionError := by
  cases cs <;> cases ee <;> simp_all [unpackAsserts]

theorem unpackAsserts_ok_elim (cs ee : Bool) (path q : String) (evs : List Event)
    (h : (unpackAsserts cs ee path evs).1 = .ok q) : cs = true ∧ ee = true ∧ q = path := by
  cases cs <;> cases ee <;> simp_all [unpackAsserts]

/- ----------------------------------------------------------------
C7: unpack postconditions.
---------------------------------------------------------------- -/

/-- C7: unpack returns success only when the external unpack child exited
successfully and the destination executable exists; if either condition
fails the result is an ExtractionError; and an archive extension outside
the supported gz/zip set fails without attempting extraction (no child
process spawned, no file written). -/
theorem unpack_postconditions (p : Platform) (name root : String) (cs ee : Bool) (v : Version) :
    ((∃ path, (unpack p name root cs ee v).1 = .ok path) → cs = true ∧ ee = true)
    ∧ ((cs = false ∨ ee = false) → (unpack p name root cs ee v).1 = .error .extractionError)
    ∧ (∀ ext, archiveExt name = some ext → ext ≠ "gz" → ext ≠ "zip" →
        (unpack p name root cs ee v).1 = .error .extractionError
        ∧ ∀ e ∈ (unpack p name root cs ee v).2,
            e ≠ Event.spawnUnpack ∧ ∀ q, e ≠ Event.writeFile q) := by
  refine ⟨?_, ?_, ?_⟩
  · rintro ⟨path, hp⟩
    unfold unpack at hp
    split at hp
    · simp at hp
    · split at hp
      · exact ⟨(unpackAsserts_ok_elim _ _ _ _ _ hp).1, (unpackAsserts_ok_elim _ _ _ _ _ hp).2.1⟩
      · split at hp
        · exact ⟨(unpackAsserts_ok_elim _ _ _ _ _ hp).1,
            (unpackAsserts_ok_elim _ _ _ _ _ hp).2.1⟩
        · simp at hp
  · intro hfe
    unfold unpack
    split
    · rfl
    · split
      · exact unpackAsserts_fst_err _ _ _ _ hfe
      · split
        · exact unpackAsserts_fst_err _ _ _ _ hfe
        · rfl
  · intro ext hext hgz hzip
    unfold unpack
    split
    · simp_all
    · rename_i ext2 hext2
      rw [hext] at hext2
      cases hext2
      rw [if_neg hgz, if_neg hzip]
      refine ⟨rfl, ?_⟩
      intro e he
      simp at he
      subst he
      exact ⟨by simp, fun q => by simp⟩

/-- C7 witness: on the real linux archive name (extension "zip"), unpack
succeeds exactly when both postconditions hold, and fails when the child
process failed. -/
theorem unpack_postconditions_witness :
    ((∃ path, (unpack .linux "deno-x86_64-unknown-linux-gnu.zip" "/r" true true
        ⟨1, 2, 3, [], []⟩).1 = .ok path) → true = true ∧ true = true)
    ∧ (unpack .linux "deno-x86_64-unknown-linux-gnu.zip" "/r" false true
        ⟨1, 2, 3, [], []⟩).1 = .error .extractionError
    ∧ ((unpack .linux "archive.tar" "/r" true true ⟨1, 2, 3, [], []⟩).1
        = .error .extractionError
       ∧ ∀ e ∈ (unpack .linux "archive.tar" "/r" true true ⟨1, 2, 3, [], []⟩).2,
            e ≠ Event.spawnUnpack ∧ ∀ q, e ≠ Event.writeFile q) :=
  ⟨(unpack_postconditions .linux "deno-x86_64-unknown-linux-gnu.zip" "/r" true true
      ⟨1, 2, 3, [], []⟩).1,
   (unpack_postconditions .linux "deno-x86_64-unknown-linux-gnu.zip" "/r" false true
      ⟨1, 2, 3, [], []⟩).2.1 (Or.inl rfl),
   (unpack_postconditions .linux "archive.tar" "/r" true true
      ⟨1, 2, 3, [], []⟩).2.2 "tar" (by decide) (by decide) (by decide)⟩

/- ----------------------------------------------------------------
C5: the replace step.
---------------------------------------------------------------- -/

/-- Sample file contents used by witnesses: a new executable inside the
version directory and an old active executable. -/
def sampleFs : String → Option String := fun q =>
  if q = "/d/1.2.3/deno" then some "new" else if q = "/u/deno" then some "old" else none

/-- C5: replace_exe is exactly two steps — on Windows a rename of the
active executable to its ".old"-named sibling, elsewhere a removal of the
active executable, followed in both cases by a copy (not a move) of the
new executable into the active path — so afterwards the version
directory still holds its own copy and the active path holds the new
contents. -/
theorem replace_exe_spec (p : Platform) (newPath oldPath : String)
    (fs : String → Option String) :
    (replace_exe p newPath oldPath).length = 2
    ∧ (p = .windows → replace_exe p newPath oldPath =
        [Event.fsRename oldPath (withExtension oldPath "old.exe"),
         Event.fsCopy newPath oldPath])
    ∧ (p ≠ .windows → replace_exe p newPath oldPath =
        [Event.fsRemove oldPath, Event.fsCopy newPath oldPath])
    ∧ (newPath ≠ oldPath → withExtension oldPath "old.exe" ≠ newPath →
        runEvents fs (replace_exe p newPath oldPath) newPath = fs newPath
        ∧ runEvents fs (replace_exe p newPath oldPath) oldPath = fs newPath) := by
  refine ⟨?_, ?_, ?_, ?_⟩
  · cases p <;> simp [replace_exe]
  · intro hw
    subst hw
    simp [replace_exe]
  · intro hw
    cases p <;> simp [replace_exe] at hw ⊢
  · intro hno hwo
    cases p <;>
      simp [replace_exe, runEvents, applyEvent, hno, Ne.symm hno, hwo, Ne.symm hwo]

/-- C5 witness: concrete replace on linux — the active path receives the
new contents and the version directory keeps its copy. -/
theorem replace_exe_spec_witness :
    runEvents sampleFs (replace_exe .linux "/d/1.2.3/deno" "/u/deno") "/d/1.2.3/deno"
      = sampleFs "/d/1.2.3/deno"
    ∧ runEvents sampleFs (replace_exe .linux "/d/1.2.3/deno" "/u/deno") "/u/deno"
      = sampleFs "/d/1.2.3/deno" :=
  (replace_exe_spec .linux "/d/1.2.3/deno" "/u/deno" sampleFs).2.2.2
    (by decide) (by decide)

/- ----------------------------------------------------------------
C1, C2, C3: the decision phase and the 404 abort.
---------------------------------------------------------------- -/

/-- Sample environment for witnesses: current version 1.2.3, a healthy
network and healthy child processes. -/
def sampleEnv : Env := {
  currentVersion := ⟨1, 2, 3, [], []⟩
  latest := .page "deno v1.3.0 latest"
  archive := .resp 200 [0]
  oldExePath := "/usr/bin/deno"
  dvmRoot := "/home/u/.dvm"
  unpackChildSuccess := true
  exeExistsAfterUnpack := true
  checkOutput := { exitSuccess := true, stdoutUtf8 := some "deno 1.3.0\n" } }

/-- C1: an explicitly requested version equal to the current one, without
force, reports "already installed", performs no network call, changes no
file, and exits successfully. -/
theorem upgrade_same_version_noop (p : Platform) (env : Env) (dry : Bool)
    (s : String) (ver : Version)
    (hparse : semver_parse s = some ver) (hcur : ver = env.currentVersion) :
    upgrade_command p env dry false (some s) = (.success, [.msgAlreadyInstalled])
    ∧ (upgrade_command p env dry false (some s)).1.exitsZero = true
    ∧ ∀ e ∈ (upgrade_command p env dry false (some s)).2,
        isNetworkEvent e = false ∧ isFsChangeEvent e = false := by
  subst hcur
  have h : upgrade_command p env dry false (some s) = (.success, [.msgAlreadyInstalled]) := by
    simp [upgrade_command, hparse]
  refine ⟨h, ?_, ?_⟩
  · rw [h]
    rfl
  · rw [h]
    intro e he
    simp at he
    subst he
    exact ⟨rfl, rfl⟩

/-- C1 witness: requesting "1.2.3" while 1.2.3 is installed is a quiet
success. -/
theorem upgrade_same_version_noop_witness :
    upgrade_command .linux sampleEnv false false (some "1.2.3")
      = (.success, [.msgAlreadyInstalled]) :=
  (upgrade_same_version_noop .linux sampleEnv false "1.2.3" ⟨1, 2, 3, [], []⟩
    (by decide) (by decide)).1

/-- C2: with no explicit version the resolver is always consulted, and
when the resolved latest is not newer than the current version
(current ≥ latest) and force is off, the command reports "already most
recent" and stops successfully without fetching any archive. -/
theorem upgrade_latest_short_circuit (p : Platform) (env : Env) (dry force : Bool) :
    Event.fetchLatest ∈ (upgrade_command p env dry force none).2
    ∧ (∀ latest, get_latest_version env.latest = .ok latest → force = false →
        versionCompare env.currentVersion latest ≠ .lt →
        upgrade_command p env dry force none = (.success, [.fetchLatest, .msgMostRecent])
        ∧ ∀ u, Event.fetchArchive u ∉ (upgrade_command p env dry force none).2) := by
  constructor
  · unfold upgrade_command
    cases h : get_latest_version env.latest <;> simp
    split <;> simp
  · intro latest hok hf hcmp
    subst hf
    have h : upgrade_command p env dry false none = (.success, [.fetchLatest, .msgMostRecent]) := by
      simp [upgrade_command, hok, hcmp]
    rw [h]
    refine ⟨rfl, ?_⟩
    intro u hu
    simp at hu

/-- C2 witness: with the page announcing v1.2.3 and 1.2.3 installed, the
run resolves the latest version and stops successfully. -/
theorem upgrade_latest_short_circuit_witness :
    upgrade_command .linux { sampleEnv with latest := .page "deno v1.2.3 x" } false false none
      = (.success, [.fetchLatest, .msgMostRecent]) :=
  ((upgrade_latest_short_circuit .linux
      { sampleEnv with latest := .page "deno v1.2.3 x" } false false).2
    ⟨1, 2, 3, [], []⟩ (by decide) rfl (by decide)).1

/-- When the archive GET answers 404, the fetch-onwards tail aborts as
VersionNotFoundError with only the fetch event. -/
theorem proceed_404 (p : Platform) (env : Env) (dry : Bool) (v : Version) (body : List Nat)
    (h : env.archive = .resp 404 body) :
    proceed p env dry v = (.versionNotFoundError, [.fetchArchive (compose_url_to_exec p v)]) := by
  simp [proceed, h, classify_download]

/-- C3: every run whose archive fetch answers HTTP 404 ends as
VersionNotFoundError with a non-zero exit status, never invokes the
unpack stage, and creates no version directory. -/
theorem upgrade_404_aborts (p : Platform) (env : Env) (dry force : Bool)
    (vopt : Option String) (body : List Nat)
    (harch : env.archive = .resp 404 body)
    (hfetch : ∃ u, Event.fetchArchive u ∈ (upgrade_command p env dry force vopt).2) :
    (upgrade_command p env dry force vopt).1 = .versionNotFoundError
    ∧ (upgrade_command p env dry force vopt).1.exitsZero = false
    ∧ ∀ e ∈ (upgrade_command p env dry force vopt).2, isUnpackEvent e = false := by
  obtain ⟨u, hu⟩ := hfetch
  match vopt with
  | some s =>
    cases hps : semver_parse s with
    | none => simp [upgrade_command, hps] at hu
    | some ver =>
      by_cases hcond : force = false ∧ env.currentVersion = ver
      · simp [upgrade_command, hps, if_pos hcond] at hu
      · have heq : upgrade_command p env dry force (some s) = proceed p env dry ver := by
          simp only [upgrade_command, hps]
          rw [if_neg hcond]
        rw [heq, proceed_404 p env dry ver body harch]
        refine ⟨rfl, rfl, ?_⟩
        intro e he
        simp at he
        subst he
        rfl
  | none =>
    cases hg : get_latest_version env.latest with
    | netErr => simp [upgrade_command, hg] at hu
    | findErr => simp [upgrade_command, hg] at hu
    | panicUnwrap => simp [upgrade_command, hg] at hu
    | ok latest =>
      by_cases hcond : force = false ∧ versionCompare env.currentVersion latest ≠ .lt
      · simp [upgrade_command, hg, if_pos hcond] at hu
      · have heq : upgrade_command p env dry force none
            = ((proceed p env dry latest).1, Event.fetchLatest :: (proceed p env dry latest).2) := by
          simp only [upgrade_command, hg]
          rw [if_neg hcond]
        rw [heq, proceed_404 p env dry latest body harch]
        refine ⟨rfl, rfl, ?_⟩
        intro e he
        simp at he
        rcases he with he | he <;> subst he <;> rfl

/-- C3 witness: fetching v9.9.9 over a 404 response aborts with a
non-zero status and no unpack activity. -/
theorem upgrade_404_aborts_witness :
    (upgrade_command .linux { sampleEnv with archive := .resp 404 [] } false true
        (some "9.9.9")).1 = .versionNotFoundError
    ∧ ∀ e ∈ (upgrade_command .linux { sampleEnv with archive := .resp 404 [] } false true
        (some "9.9.9")).2, isUnpackEvent e = false :=
  ⟨(upgrade_404_aborts .linux { sampleEnv with archive := .resp 404 [] } false true
      (some "9.9.9") [] rfl
      ⟨"https://github.com/denoland/deno/releases/download/v9.9.9/deno-x86_64-unknown-linux-gnu.zip",
        by decide⟩).1,
   (upgrade_404_aborts .linux { sampleEnv with archive := .resp 404 [] } false true
      (some "9.9.9") [] rfl
      ⟨"https://github.com/denoland/deno/releases/download/v9.9.9/deno-x86_64-unknown-linux-gnu.zip",
        by decide⟩).2.2⟩

/- ----------------------------------------------------------------
C4: verification of the extracted executable.
---------------------------------------------------------------- -/

theorem unpack_no_replace (p : Platform) (name root : String) (cs ee : Bool) (v : Version) :
    ∀ e ∈ (unpack p name root cs ee v).2, isReplaceEvent e = false := by
  intro e he
  unfold unpack at he
  split at he
  · simp at he
    subst he
    rfl
  · split at he
    · rw [unpackAsserts_snd] at he
      simp at he
      rcases he with he | he | he <;> subst he <;> rfl
    · split at he
      · rw [unpackAsserts_snd] at he
        simp at he
        rcases he with he | he | he <;> subst he <;> rfl
      · simp at he
        subst he
        rfl

theorem proceed_no_replace_of_err (p : Platform) (env : Env) (dry : Bool) (v : Version)
    (h : (proceed p env dry v).1 ≠ .success) :
    ∀ e ∈ (proceed p env dry v).2, isReplaceEvent e = false := by
  intro e he
  cases hc : classify_download env.archive with
  | error e0 =>
    simp only [proceed, hc] at he
    simp at he
    subst he
    rfl
  | ok body =>
    cases hu : unpack p (ARCHIVE_NAME p) env.dvmRoot env.unpackChildSuccess
        env.exeExistsAfterUnpack v with
    | mk res ev2 =>
      cases res with
      | error e0 =>
        simp only [proceed, hc, hu] at he
        simp at he
        rcases he with he | he
        · subst he
          rfl
        · have h2 := unpack_no_replace p (ARCHIVE_NAME p) env.dvmRoot env.unpackChildSuccess
            env.exeExistsAfterUnpack v e
          rw [hu] at h2
          exact h2 he
      | ok newPath =>
        cases hch : check_exe env.checkOutput v with
        | error e0 =>
          simp only [proceed, hc, hu, hch] at he
          simp at he
          rcases he with he | he | he | he
          · subst he
            rfl
          · have h2 := unpack_no_replace p (ARCHIVE_NAME p) env.dvmRoot env.unpackChildSuccess
              env.exeExistsAfterUnpack v e
            rw [hu] at h2
            exact h2 he
          · subst he
            rfl
          · subst he
            rfl
        | ok u0 =>
          exfalso
          apply h
          cases dry <;> simp [proceed, hc, hu, hch]

theorem upgrade_no_replace_of_err (p : Platform) (env : Env) (dry force : Bool)
    (vopt : Option String)
    (h : (upgrade_command p env dry force vopt).1 ≠ .success) :
    ∀ e ∈ (upgrade_command p env dry force vopt).2, isReplaceEvent e = false := by
  intro e he
  match vopt with
  | some s =>
    cases hps : semver_parse s with
    | none => simp [upgrade_command, hps] at he
    | some ver =>
      by_cases hcond : force = false ∧ env.currentVersion = ver
      · simp [upgrade_command, hps, if_pos hcond] at he
        subst he
        rfl
      · have heq : upgrade_command p env dry force (some s) = proceed p env dry ver := by
          simp only [upgrade_command, hps]
          rw [if_neg hcond]
        rw [heq] at h he
        exact proceed_no_replace_of_err p env dry ver h e he
  | none =>
    cases hg : get_latest_version env.latest with
    | netErr =>
      simp [upgrade_command, hg] at he
      subst he
      rfl
    | findErr =>
      simp [upgrade_command, hg] at he
      subst he
      rfl
    | panicUnwrap =>
      simp [upgrade_command, hg] at he
      subst he
      rfl
    | ok latest =>
      by_cases hcond : force = false ∧ versionCompare env.currentVersion latest ≠ .lt
      · simp [upgrade_command, hg, if_pos hcond] at he
        rcases he with he | he <;> subst he <;> rfl
      · have heq : upgrade_command p env dry force none
            = ((proceed p env dry latest).1, Event.fetchLatest :: (proceed p env dry latest).2) := by
          simp only [upgrade_command, hg]
          rw [if_neg hcond]
        rw [heq] at h he
        simp at he
        rcases he with he | he
        · subst he
          rfl
        · exact proceed_no_replace_of_err p env dry latest h e he

/-- C4: verification succeeds exactly when the executable exits
successfully, its stdout is valid UTF-8, and the trimmed output is
literally "deno <version>"; any other outcome is a VerificationError, and
a run ending in VerificationError never performs a replace operation. -/
theorem check_exe_spec (out : ProcOutput) (expected : Version) :
    (check_exe out expected = .ok () ↔
      out.exitSuccess = true
      ∧ ∃ o, out.stdoutUtf8 = some o ∧ strTrim o = "deno " ++ expected.toStr)
    ∧ (check_exe out expected ≠ .ok () → check_exe out expected = .error .verificationError)
    ∧ (∀ (p : Platform) (env : Env) (dry force : Bool) (vopt : Option String),
        (upgrade_command p env dry force vopt).1 = .verificationError →
        ∀ e ∈ (upgrade_command p env dry force vopt).2, isReplaceEvent e = false) := by
  refine ⟨?_, ?_, ?_⟩
  · obtain ⟨es, su⟩ := out
    cases su with
    | none => simp [check_exe]
    | some o =>
      cases es with
      | false => simp [check_exe]
      | true =>
        by_cases htr : strTrim o = "deno " ++ expected.toStr
        · simp [check_exe, htr]
        · simp [check_exe, htr]
  · intro hne
    obtain ⟨es, su⟩ := out
    cases su with
    | none => rfl
    | some o =>
      cases es with
      | false => rfl
      | true =>
        by_cases htr : strTrim o = "deno " ++ expected.toStr
        · exact absurd (by simp [check_exe, htr]) hne
        · simp [check_exe, htr]
  · intro p env dry force vopt hres
    refine upgrade_no_replace_of_err p env dry force vopt ?_
    rw [hres]
    intro hcontra
    cases hcontra

/-- C4 witness: a matching banner verifies; a failing exit status is a
VerificationError. -/
theorem check_exe_spec_witness :
    check_exe { exitSuccess := true, stdoutUtf8 := some "deno 1.2.3\n" }
      ⟨1, 2, 3, [], []⟩ = .ok ()
    ∧ check_exe { exitSuccess := false, stdoutUtf8 := some "deno 1.2.3" }
      ⟨1, 2, 3, [], []⟩ = .error .verificationError :=
  ⟨(check_exe_spec { exitSuccess := true, stdoutUtf8 := some "deno 1.2.3\n" }
      ⟨1, 2, 3, [], []⟩).1.mpr ⟨rfl, "deno 1.2.3\n", rfl, by decide⟩,
   (check_exe_spec { exitSuccess := false, stdoutUtf8 := some "deno 1.2.3" }
      ⟨1, 2, 3, [], []⟩).2.1 (by intro h; exact Except.noConfusion h)⟩

/- ----------------------------------------------------------------
C6: dry run.
---------------------------------------------------------------- -/

theorem runEvents_unchanged (evs : List Event) : ∀ (fs : String → Option String) (q : String),
    (∀ e ∈ evs, writesPath e q = false) → runEvents fs evs q = fs q := by
  induction evs with
  | nil =>
    intro fs q _
    rfl
  | cons e rest ih =>
    intro fs q h
    have he := h e (List.mem_cons_self e rest)
    have hrest : ∀ x ∈ rest, writesPath x q = false :=
      fun x hx => h x (List.mem_cons_of_mem _ hx)
    have hstep : runEvents fs (e :: rest) q = runEvents (applyEvent fs e) rest q := rfl
    rw [hstep, ih (applyEvent fs e) q hrest]
    cases e with
    | fsRename src dst =>
      simp [writesPath] at he
      simp [applyEvent, he.1, he.2]
    | fsRemove tgt =>
      simp [writesPath] at he
      simp [applyEvent, he]
    | fsCopy src dst =>
      simp [writesPath] at he
      simp [applyEvent, he]
    | writeFile tgt =>
      simp [writesPath] at he
      simp [applyEvent, he]
    | msgAlreadyInstalled => rfl
    | msgMostRecent => rfl
    | fetchLatest => rfl
    | fetchArchive u => rfl
    | createVersionDir d => rfl
    | spawnUnpack => rfl
    | setPermissions q2 => rfl
    | runCheckExe q2 => rfl

theorem pathJoin_anchored (root a b : String) :
    pathJoin (pathJoin root a) b = root ++ "/" ++ (a ++ "/" ++ b) := by
  simp [pathJoin, String.append_assoc]

theorem unpack_writes_anchored (p : Platform) (name root : String) (cs ee : Bool) (v : Version) :
    ∀ e ∈ (unpack p name root cs ee v).2, ∀ q, writesPath e q = true →
      ∃ sfx, q = root ++ "/" ++ sfx := by
  intro e he q hw
  unfold unpack at he
  split at he
  · simp at he
    subst he
    simp [writesPath] at hw
  · split at he
    · rw [unpackAsserts_snd] at he
      simp at he
      rcases he with he | he | he
      · subst he
        simp [writesPath] at hw
      · subst he
        simp [writesPath] at hw
        refine ⟨v.toStr ++ "/" ++ (if p = .windows then "deno.exe" else "deno"), ?_⟩
        rw [hw]
        exact pathJoin_anchored root v.toStr _
      · subst he
        simp [writesPath] at hw
    · split at he
      · rw [unpackAsserts_snd] at he
        simp at he
        rcases he with he | he | he
        · subst he
          simp [writesPath] at hw
        · subst he
          simp [writesPath] at hw
          refine ⟨v.toStr ++ "/" ++ "deno.zip", ?_⟩
          rw [hw]
          exact pathJoin_anchored root v.toStr _
        · subst he
          simp [writesPath] at hw
      · simp at he
        subst he
        simp [writesPath] at hw

theorem proceed_dry_no_replace (p : Platform) (env : Env) (v : Version) :
    ∀ e ∈ (proceed p env true v).2, isReplaceEvent e = false := by
  intro e he
  cases hc : classify_download env.archive with
  | error e0 =>
    simp only [proceed, hc] at he
    simp at he
    subst he
    rfl
  | ok body =>
    cases hu : unpack p (ARCHIVE_NAME p) env.dvmRoot env.unpackChildSuccess
        env.exeExistsAfterUnpack v with
    | mk res ev2 =>
      have h2 := unpack_no_replace p (ARCHIVE_NAME p) env.dvmRoot env.unpackChildSuccess
        env.exeExistsAfterUnpack v e
      rw [hu] at h2
      cases res with
      | error e0 =>
        simp only [proceed, hc, hu] at he
        simp at he
        rcases he with he | he
        · subst he
          rfl
        · exact h2 he
      | ok newPath =>
        cases hch : check_exe env.checkOutput v with
        | error e0 =>
          simp only [proceed, hc, hu, hch] at he
          simp at he
          rcases he with he | he | he | he
          · subst he
            rfl
          · exact h2 he
          · subst he
            rfl
          · subst he
            rfl
        | ok u0 =>
          simp [proceed, hc, hu, hch] at he
          rcases he with he | he | he | he
          · subst he
            rfl
          · exact h2 he
          · subst he
            rfl
          · subst he
            rfl

theorem replace_exe_all_replace (p : Platform) (a b : String) :
    ∀ e ∈ replace_exe p a b, isReplaceEvent e = true := by
  intro e he
  cases p <;> simp [replace_exe] at he <;> rcases he with he | he <;> subst he <;> rfl

theorem proceed_dry_filter (p : Platform) (env : Env) (v : Version) :
    (proceed p env true v).2 = ((proceed p env false v).2).filter (fun e => !isReplaceEvent e) := by
  cases hc : classify_download env.archive with
  | error e0 =>
    simp only [proceed, hc]
    rw [List.filter_eq_self.mpr]
    intro e he
    simp at he
    subst he
    rfl
  | ok body =>
    cases hu : unpack p (ARCHIVE_NAME p) env.dvmRoot env.unpackChildSuccess
        env.exeExistsAfterUnpack v with
    | mk res ev2 =>
      have h2 : ∀ e ∈ ev2, isReplaceEvent e = false := by
        intro e he
        have := unpack_no_replace p (ARCHIVE_NAME p) env.dvmRoot env.unpackChildSuccess
          env.exeExistsAfterUnpack v e
        rw [hu] at this
        exact this he
      cases res with
      | error e0 =>
        simp only [proceed, hc, hu]
        rw [List.filter_eq_self.mpr]
        intro e he
        simp at he
        rcases he with he | he
        · subst he
          rfl
        · simp [h2 e he]
      | ok newPath =>
        cases hch : check_exe env.checkOutput v with
        | error e0 =>
          simp only [proceed, hc, hu, hch]
          rw [List.filter_eq_self.mpr]
          intro e he
          simp at he
          rcases he with he | he | he | he
          · subst he
            rfl
          · simp [h2 e he]
          · subst he
            rfl
          · subst he
            rfl
        | ok u0 =>
          have hT : (proceed p env true v).2
              = Event.fetchArchive (compose_url_to_exec p v)
                :: (ev2 ++ [Event.setPermissions newPath, Event.runCheckExe newPath]) := by
            simp only [proceed, hc, hu, hch]
            rw [if_pos (by trivial)]
            rfl
          have hF : (proceed p env false v).2
              = (Event.fetchArchive (compose_url_to_exec p v)
                  :: (ev2 ++ [Event.setPermissions newPath, Event.runCheckExe newPath]))
                ++ replace_exe p newPath env.oldExePath := by
            simp only [proceed, hc, hu, hch]
            rw [if_neg (by simp)]
            simp [List.append_assoc]
          have hnotrep : ∀ e ∈ Event.fetchArchive (compose_url_to_exec p v)
              :: (ev2 ++ [Event.setPermissions newPath, Event.runCheckExe newPath]),
              (fun x => !isReplaceEvent x) e = true := by
            intro e he
            simp at he
            rcases he with he | he | he | he
            · subst he
              rfl
            · simp [h2 e he]
            · subst he
              rfl
            · subst he
              rfl
          have hdrop : (replace_exe p newPath env.oldExePath).filter
              (fun e => !isReplaceEvent e) = [] := by
            refine List.filter_eq_nil_iff.mpr ?_
            intro e he
            simp [replace_exe_all_replace p newPath env.oldExePath e he]
          rw [hT, hF, List.filter_append, List.filter_eq_self.mpr hnotrep, hdrop,
            List.append_nil]

theorem proceed_dry_writes_anchored (p : Platform) (env : Env) (v : Version) :
    ∀ e ∈ (proceed p env true v).2, ∀ q, writesPath e q = true →
      ∃ sfx, q = env.dvmRoot ++ "/" ++ sfx := by
  intro e he q hw
  have h2 : e ∈ (unpack p (ARCHIVE_NAME p) env.dvmRoot env.unpackChildSuccess
      env.exeExistsAfterUnpack v).2 → ∃ sfx, q = env.dvmRoot ++ "/" ++ sfx :=
    fun hm => unpack_writes_anchored p (ARCHIVE_NAME p) env.dvmRoot env.unpackChildSuccess
      env.exeExistsAfterUnpack v e hm q hw
  cases hc : classify_download env.archive with
  | error e0 =>
    simp only [proceed, hc] at he
    simp at he
    subst he
    simp [writesPath] at hw
  | ok body =>
    cases hu : unpack p (ARCHIVE_NAME p) env.dvmRoot env.unpackChildSuccess
        env.exeExistsAfterUnpack v with
    | mk res ev2 =>
      rw [hu] at h2
      cases res with
      | error e0 =>
        simp only [proceed, hc, hu] at he
        simp at he
        rcases he with he | he
        · subst he
          simp [writesPath] at hw
        · exact h2 he
      | ok newPath =>
        cases hch : check_exe env.checkOutput v with
        | error e0 =>
          simp only [proceed, hc, hu, hch] at he
          simp at he
          rcases he with he | he | he | he
          · subst he
            simp [writesPath] at hw
          · exact h2 he
          · subst he
            simp [writesPath] at hw
          · subst he
            simp [writesPath] at hw
        | ok u0 =>
          simp only [proceed, hc, hu, hch, if_pos rfl] at he
          simp at he
          rcases he with he | he | he | he
          · subst he
            simp [writesPath] at hw
          · exact h2 he
          · subst he
            simp [writesPath] at hw
          · subst he
            simp [writesPath] at hw

theorem upgrade_dry_no_replace (p : Platform) (env : Env) (force : Bool) (vopt : Option String) :
    ∀ e ∈ (upgrade_command p env true force vopt).2, isReplaceEvent e = false := by
  intro e he
  match vopt with
  | some s =>
    cases hps : semver_parse s with
    | none => simp [upgrade_command, hps] at he
    | some ver =>
      by_cases hcond : force = false ∧ env.currentVersion = ver
      · simp [upgrade_command, hps, if_pos hcond] at he
        subst he
        rfl
      · have heq : upgrade_command p env true force (some s) = proceed p env true ver := by
          simp only [upgrade_command, hps]
          rw [if_neg hcond]
        rw [heq] at he
        exact proceed_dry_no_replace p env ver e he
  | none =>
    cases hg : get_latest_version env.latest with
    | netErr =>
      simp [upgrade_command, hg] at he
      subst he
      rfl
    | findErr =>
      simp [upgrade_command, hg] at he
      subst he
      rfl
    | panicUnwrap =>
      simp [upgrade_command, hg] at he
      subst he
      rfl
    | ok latest =>
      by_cases hcond : force = false ∧ versionCompare env.currentVersion latest ≠ .lt
      · simp [upgrade_command, hg, if_pos hcond] at he
        rcases he with he | he <;> subst he <;> rfl
      · have heq : upgrade_command p env true force none
            = ((proceed p env true latest).1, Event.fetchLatest :: (proceed p env true latest).2) := by
          simp only [upgrade_command, hg]
          rw [if_neg hcond]
        rw [heq] at he
        simp at he
        rcases he with he | he
        · subst he
          rfl
        · exact proceed_dry_no_replace p env latest e he

theorem upgrade_dry_writes_anchored (p : Platform) (env : Env) (force : Bool)
    (vopt : Option String) :
    ∀ e ∈ (upgrade_command p env true force vopt).2, ∀ q, writesPath e q = true →
      ∃ sfx, q = env.dvmRoot ++ "/" ++ sfx := by
  intro e he q hw
  match vopt with
  | some s =>
    cases hps : semver_parse s with
    | none => simp [upgrade_command, hps] at he
    | some ver =>
      by_cases hcond : force = false ∧ env.currentVersion = ver
      · simp [upgrade_command, hps, if_pos hcond] at he
        subst he
        simp [writesPath] at hw
      · have heq : upgrade_command p env true force (some s) = proceed p env true ver := by
          simp only [upgrade_command, hps]
          rw [if_neg hcond]
        rw [heq] at he
        exact proceed_dry_writes_anchored p env ver e he q hw
  | none =>
    cases hg : get_latest_version env.latest with
    | netErr =>
      simp [upgrade_command, hg] at he
      subst he
      simp [writesPath] at hw
    | findErr =>
      simp [upgrade_command, hg] at he
      subst he
      simp [writesPath] at hw
    | panicUnwrap =>
      simp [upgrade_command, hg] at he
      subst he
      simp [writesPath] at hw
    | ok latest =>
      by_cases hcond : force = false ∧ versionCompare env.currentVersion latest ≠ .lt
      · simp [upgrade_command, hg, if_pos hcond] at he
        rcases he with he | he <;> subst he <;> simp [writesPath] at hw
      · have heq : upgrade_command p env true force none
            = ((proceed p env true latest).1, Event.fetchLatest :: (proceed p env true latest).2) := by
          simp only [upgrade_command, hg]
          rw [if_neg hcond]
        rw [heq] at he
        simp at he
        rcases he with he | he
        · subst he
          simp [writesPath] at hw
        · exact proceed_dry_writes_anchored p env latest e he q hw

theorem upgrade_dry_filter (p : Platform) (env : Env) (force : Bool) (vopt : Option String) :
    (upgrade_command p env true force vopt).2
      = ((upgrade_command p env false force vopt).2).filter (fun e => !isReplaceEvent e) := by
  match vopt with
  | some s =>
    cases hps : semver_parse s with
    | none => simp [upgrade_command, hps]
    | some ver =>
      by_cases hcond : force = false ∧ env.currentVersion = ver
      · simp [upgrade_command, hps, if_pos hcond, isReplaceEvent]
      · have heqT : upgrade_command p env true force (some s) = proceed p env true ver := by
          simp only [upgrade_command, hps]
          rw [if_neg hcond]
        have heqF : upgrade_command p env false force (some s) = proceed p env false ver := by
          simp only [upgrade_command, hps]
          rw [if_neg hcond]
        rw [heqT, heqF]
        exact proceed_dry_filter p env ver
  | none =>
    cases hg : get_latest_version env.latest with
    | netErr => simp [upgrade_command, hg, isReplaceEvent]
    | findErr => simp [upgrade_command, hg, isReplaceEvent]
    | panicUnwrap => simp [upgrade_command, hg, isReplaceEvent]
    | ok latest =>
      by_cases hcond : force = false ∧ versionCompare env.currentVersion latest ≠ .lt
      · simp [upgrade_command, hg, if_pos hcond, isReplaceEvent]
      · have heqT : upgrade_command p env true force none
            = ((proceed p env true latest).1, Event.fetchLatest :: (proceed p env true latest).2) := by
          simp only [upgrade_command, hg]
          rw [if_neg hcond]
        have heqF : upgrade_command p env false force none
            = ((proceed p env false latest).1, Event.fetchLatest :: (proceed p env false latest).2) := by
          simp only [upgrade_command, hg]
          rw [if_neg hcond]
        rw [heqT, heqF]
        have hcons : (Event.fetchLatest :: (proceed p env false latest).2).filter
            (fun e => !isReplaceEvent e)
            = Event.fetchLatest :: ((proceed p env false latest).2).filter
              (fun e => !isReplaceEvent e) := List.filter_cons_of_pos rfl
        rw [hcons]
        rw [proceed_dry_filter p env latest]

/-- C6: a dry run never performs any replace operation, its trace is
exactly the non-dry trace with the replace operations removed (all other
stages run identically), and — provided the active executable does not
live inside the dvm root — the file at the active path is unchanged, so
the version it reports is unchanged. -/
theorem dry_run_skips_replace (p : Platform) (env : Env) (force : Bool) (vopt : Option String)
    (fs : String → Option String) :
    (∀ e ∈ (upgrade_command p env true force vopt).2, isReplaceEvent e = false)
    ∧ (upgrade_command p env true force vopt).2
      = ((upgrade_command p env false force vopt).2).filter (fun e => !isReplaceEvent e)
    ∧ ((∀ sfx, env.oldExePath ≠ env.dvmRoot ++ "/" ++ sfx) →
        runEvents fs (upgrade_command p env true force vopt).2 env.oldExePath
          = fs env.oldExePath) := by
  refine ⟨upgrade_dry_no_replace p env force vopt, upgrade_dry_filter p env force vopt, ?_⟩
  intro hOld
  apply runEvents_unchanged
  intro e he
  cases hwp : writesPath e env.oldExePath with
  | false => rfl
  | true =>
    exfalso
    obtain ⟨sfx, hsfx⟩ := upgrade_dry_writes_anchored p env force vopt e he env.oldExePath hwp
    exact hOld sfx hsfx

/-- Environment for the dry-run witness: the active executable lives
outside the dvm root. -/
def dryEnv : Env := { sampleEnv with oldExePath := "/bin/deno" }

/-- C6 witness: a concrete dry run (latest 1.3.0 over installed 1.2.3)
performs no replace operation and leaves the active executable's file
contents unchanged. -/
theorem dry_run_skips_replace_witness :
    (∀ e ∈ (upgrade_command .linux dryEnv true false none).2, isReplaceEvent e = false)
    ∧ runEvents sampleFs (upgrade_command .linux dryEnv true false none).2 "/bin/deno"
        = sampleFs "/bin/deno" :=
  ⟨(dry_run_skips_replace .linux dryEnv false none sampleFs).1,
   (dry_run_skips_replace .linux dryEnv false none sampleFs).2.2 (by
      intro sfx h
      have hl := congrArg String.length h
      rw [String.length_append, String.length_append] at hl
      have hop : dryEnv.oldExePath = "/bin/deno" := rfl
      have hrt : dryEnv.dvmRoot = "/home/u/.dvm" := rfl
      rw [hop, hrt] at hl
      have h9 : ("/bin/deno" : String).length = 9 := rfl
      have h12 : ("/home/u/.dvm" : String).length = 12 := rfl
      have h1 : ("/" : String).length = 1 := rfl
      rw [h9, h12, h1] at hl
      omega)⟩

/- ----------------------------------------------------------------
C9: the cleanup flow.
---------------------------------------------------------------- -/

theorem foldl_delete_eq (R : List String) : ∀ (meta : DvmMeta),
    (R.foldl (fun m r => delete_version_mapping m r) meta).versions
      = meta.versions.filter (fun v => !(R.contains v.required)) := by
  induction R with
  | nil =>
    intro meta
    simp [List.foldl]
  | cons r rs ih =>
    intro meta
    have hstep : (r :: rs).foldl (fun m r => delete_version_mapping m r) meta
        = rs.foldl (fun m r => delete_version_mapping m r) (delete_version_mapping meta r) := rfl
    rw [hstep, ih]
    simp only [delete_version_mapping]
    rw [List.filter_filter]
    apply List.filter_congr
    intro v _
    simp only [List.contains_cons, Bool.not_or, Bool.and_comm]
    by_cases hrr : v.required = r <;> simp [hrr, bne]

theorem mem_collectInvalid (dirOk : String → Bool) (meta : DvmMeta) (r : String) :
    r ∈ collectInvalidRequires dirOk meta
      ↔ ∃ v ∈ meta.versions, is_valid_mapping dirOk v = false ∧ v.required = r := by
  simp only [collectInvalidRequires, List.mem_filterMap]
  constructor
  · rintro ⟨v, hv, hf⟩
    cases hval : is_valid_mapping dirOk v with
    | true =>
      rw [if_pos hval] at hf
      cases hf
    | false =>
      rw [if_neg (by simp [hval])] at hf
      cases hf
      exact ⟨v, hv, hval, rfl⟩
  · rintro ⟨v, hv, hval, hreq⟩
    refine ⟨v, hv, ?_⟩
    rw [if_neg (by simp [hval]), hreq]

/-- C9: if the version cache root is missing, cleanup is a successful
no-op (exit 0, store untouched, no operation performed); otherwise, when
the store maps each requirement at most once, cleanup keeps exactly the
valid mappings, deletes exactly the requirements of the invalid ones, and
calls clean_files exactly once while still exiting 0. -/
theorem clean_exec_spec (dirOk : String → Bool) (meta : DvmMeta) :
    clean_exec false dirOk meta = (0, meta, [])
    ∧ ((meta.versions.map (fun v => v.required)).Nodup →
        ((clean_exec true dirOk meta).2.1.versions
          = meta.versions.filter (fun v => is_valid_mapping dirOk v))
        ∧ (clean_exec true dirOk meta).1 = 0
        ∧ ((clean_exec true dirOk meta).2.2.count CleanEvent.cleanFilesCall = 1)
        ∧ (∀ r, CleanEvent.deleteMapping r ∈ (clean_exec true dirOk meta).2.2
            ↔ ∃ v ∈ meta.versions, is_valid_mapping dirOk v = false ∧ v.required = r)) := by
  constructor
  · rfl
  · intro hnd
    refine ⟨?_, rfl, ?_, ?_⟩
    · show ((collectInvalidRequires dirOk meta).foldl
          (fun m r => delete_version_mapping m r) meta).versions
        = meta.versions.filter (fun v => is_valid_mapping dirOk v)
      rw [foldl_delete_eq]
      apply List.filter_congr
      intro v hv
      cases hval : is_valid_mapping dirOk v with
      | true =>
        have hnot : v.required ∉ collectInvalidRequires dirOk meta := by
          intro hmem
          obtain ⟨w, hw, hwval, hwreq⟩ := (mem_collectInvalid dirOk meta v.required).mp hmem
          have hwv : w = v := List.inj_on_of_nodup_map hnd hw hv hwreq
          rw [hwv, hval] at hwval
          cases hwval
        simp [hnot, hval]
      | false =>
        have hmem : v.required ∈ collectInvalidRequires dirOk meta :=
          (mem_collectInvalid dirOk meta v.required).mpr ⟨v, hv, hval, rfl⟩
        simp [hmem, hval]
    · show ((collectInvalidRequires dirOk meta).map CleanEvent.deleteMapping
          ++ [CleanEvent.cleanFilesCall]).count CleanEvent.cleanFilesCall = 1
      rw [List.count_append]
      have h0 : ((collectInvalidRequires dirOk meta).map CleanEvent.deleteMapping).count
          CleanEvent.cleanFilesCall = 0 := by
        rw [List.count_eq_zero]
        intro hmem
        obtain ⟨a, _, hae⟩ := List.mem_map.mp hmem
        cases hae
      rw [h0]
      rfl
    · intro r
      show CleanEvent.deleteMapping r ∈ (collectInvalidRequires dirOk meta).map
          CleanEvent.deleteMapping ++ [CleanEvent.cleanFilesCall] ↔ _
      rw [List.mem_append]
      constructor
      · rintro (hm | hm)
        · obtain ⟨a, ha, hae⟩ := List.mem_map.mp hm
          cases hae
          exact (mem_collectInvalid dirOk meta r).mp ha
        · simp at hm
      · intro hex
        exact Or.inl (List.mem_map.mpr ⟨r, (mem_collectInvalid dirOk meta r).mpr hex, rfl⟩)

/-- C9 witness: the spec's scenario — A mapped to the existing 1.2.0, B
mapped to the missing 1.3.0 — keeps only A, and a missing cache root is a
no-op. -/
theorem clean_exec_spec_witness :
    clean_exec false (fun d => d == "1.2.0") ⟨[⟨"A", "1.2.0"⟩, ⟨"B", "1.3.0"⟩]⟩
      = (0, ⟨[⟨"A", "1.2.0"⟩, ⟨"B", "1.3.0"⟩]⟩, [])
    ∧ (clean_exec true (fun d => d == "1.2.0") ⟨[⟨"A", "1.2.0"⟩, ⟨"B", "1.3.0"⟩]⟩).2.1.versions
      = [⟨"A", "1.2.0"⟩]
    ∧ (clean_exec true (fun d => d == "1.2.0")
        ⟨[⟨"A", "1.2.0"⟩, ⟨"B", "1.3.0"⟩]⟩).2.2.count CleanEvent.cleanFilesCall = 1 :=
  ⟨(clean_exec_spec (fun d => d == "1.2.0") ⟨[⟨"A", "1.2.0"⟩, ⟨"B", "1.3.0"⟩]⟩).1,
   (((clean_exec_spec (fun d => d == "1.2.0")
      ⟨[⟨"A", "1.2.0"⟩, ⟨"B", "1.3.0"⟩]⟩).2 (by decide)).1).trans (by decide),
   ((clean_exec_spec (fun d => d == "1.2.0")
      ⟨[⟨"A", "1.2.0"⟩, ⟨"B", "1.3.0"⟩]⟩).2 (by decide)).2.2.1⟩

/- ----------------------------------------------------------------
C8, C10: the find_version regex characterisation.
---------------------------------------------------------------- -/

theorem takeWhile_digits_of_append (d : List Char) : ∀ {x : Char} {r : List Char},
    (∀ c ∈ d, c.isDigit = true) → x.isDigit = false →
    (d ++ x :: r).takeWhile Char.isDigit = d
    ∧ (d ++ x :: r).dropWhile Char.isDigit = x :: r := by
  induction d with
  | nil =>
    intro x r _ hx
    simp [List.takeWhile_cons, List.dropWhile_cons, hx]
  | cons c cs ih =>
    intro x r hd hx
    have hc : c.isDigit = true := hd c (List.mem_cons_self _ _)
    have hcs := @ih x r (fun a ha => hd a (List.mem_cons_of_mem _ ha)) hx
    simp [List.takeWhile_cons, List.dropWhile_cons, hc, hcs.1, hcs.2]

theorem matchSeg_of_append (d : List Char) (x : Char) (r : List Char)
    (hd : ∀ c ∈ d, c.isDigit = true) (hne : d ≠ []) (hx : x.isDigit = false) :
    matchSeg (d ++ x :: r) = some (d, x :: r) := by
  have h := @takeWhile_digits_of_append d x r hd hx
  simp [matchSeg, h.1, h.2, hne]

theorem matchSeg_some (cs d r : List Char) (h : matchSeg cs = some (d, r)) :
    cs = d ++ r ∧ d ≠ [] ∧ ∀ c ∈ d, c.isDigit = true := by
  simp only [matchSeg] at h
  split at h
  · cases h
  · rename_i hemp
    injection h with h2
    injection h2 with hA hB
    refine ⟨?_, ?_, ?_⟩
    · rw [← hA, ← hB]
      exact (List.takeWhile_append_dropWhile Char.isDigit cs).symm
    · rw [← hA]
      intro hnil
      rw [hnil] at hemp
      exact hemp rfl
    · rw [← hA]
      intro c hc
      exact List.mem_takeWhile_imp hc

theorem matchAt_complete (cs s : List Char) (h : TokenFrom cs s) :
    matchAt cs = some ('v' :: (s ++ [' '])) := by
  obtain ⟨d1, d2, d3, rest, h1, h2, h3, hs, hcs⟩ := h
  subst hs
  subst hcs
  have hdot : ('.' : Char).isDigit = false := by decide
  have hsp : (' ' : Char).isDigit = false := by decide
  have e1 : matchSeg (d1 ++ '.' :: (d2 ++ '.' :: (d3 ++ ' ' :: rest)))
      = some (d1, '.' :: (d2 ++ '.' :: (d3 ++ ' ' :: rest))) :=
    matchSeg_of_append d1 '.' _ h1.2 h1.1 hdot
  have e2 : matchSeg (d2 ++ '.' :: (d3 ++ ' ' :: rest))
      = some (d2, '.' :: (d3 ++ ' ' :: rest)) :=
    matchSeg_of_append d2 '.' _ h2.2 h2.1 hdot
  have e3 : matchSeg (d3 ++ ' ' :: rest) = some (d3, ' ' :: rest) :=
    matchSeg_of_append d3 ' ' _ h3.2 h3.1 hsp
  simp [matchAt, e1, e2, e3, List.append_assoc, List.cons_append]

theorem matchAt_some (cs m : List Char) (h : matchAt cs = some m) :
    ∃ s, TokenFrom cs s ∧ m = 'v' :: (s ++ [' ']) := by
  match cs with
  | [] => simp [matchAt] at h
  | c :: rest =>
    simp only [matchAt] at h
    split at h
    · cases h
    · rename_i hcv
      have hc : c = 'v' := not_not.mp hcv
      split at h
      · cases h
      · rename_i d1 r1 hseg1
        split at h
        · cases h
        · rename_i c1 r2
          split at h
          · cases h
          · rename_i hc1
            have hc1e : c1 = '.' := not_not.mp hc1
            split at h
            · cases h
            · rename_i d2 r3 hseg2
              split at h
              · cases h
              · rename_i c2 r4
                split at h
                · cases h
                · rename_i hc2
                  have hc2e : c2 = '.' := not_not.mp hc2
                  split at h
                  · cases h
                  · rename_i d3 r5 hseg3
                    split at h
                    · cases h
                    · rename_i c3 tail
                      split at h
                      · cases h
                      · rename_i hc3
                        have hc3e : c3 = ' ' := not_not.mp hc3
                        injection h with hm
                        obtain ⟨e1, hne1, hd1⟩ := matchSeg_some rest d1 (c1 :: r2) hseg1
                        obtain ⟨e2, hne2, hd2⟩ := matchSeg_some r2 d2 (c2 :: r4) hseg2
                        obtain ⟨e3, hne3, hd3⟩ := matchSeg_some r4 d3 (c3 :: tail) hseg3
                        refine ⟨d1 ++ '.' :: d2 ++ '.' :: d3,
                          ⟨d1, d2, d3, tail, ⟨hne1, hd1⟩, ⟨hne2, hd2⟩, ⟨hne3, hd3⟩, rfl, ?_⟩, ?_⟩
                        · subst hc hc1e hc2e hc3e
                          rw [e1, e2, e3]
                          simp [List.append_assoc]
                        · rw [← hm]

theorem findFirst_some (cs : List Char) : ∀ m, findFirst cs = some m →
    ∃ i, matchAt (cs.drop i) = some m ∧ ∀ j, j < i → matchAt (cs.drop j) = none := by
  induction cs with
  | nil =>
    intro m h
    cases h
  | cons c rest ih =>
    intro m h
    cases hm : matchAt (c :: rest) with
    | some m2 =>
      have hm2 : m2 = m := by
        simp only [findFirst, hm] at h
        exact Option.some.inj h
      subst hm2
      exact ⟨0, hm, fun j hj => absurd hj (Nat.not_lt_zero j)⟩
    | none =>
      have h2 : findFirst rest = some m := by
        simp only [findFirst, hm] at h
        exact h
      obtain ⟨i, hi, hbefore⟩ := ih m h2
      refine ⟨i + 1, by simpa using hi, ?_⟩
      intro j hj
      match j with
      | 0 => exact hm
      | j2 + 1 =>
        have : j2 < i := Nat.lt_of_succ_lt_succ hj
        simpa using hbefore j2 this

theorem findFirst_none (cs : List Char) :
    findFirst cs = none ↔ ∀ i, matchAt (cs.drop i) = none := by
  induction cs with
  | nil =>
    simp [findFirst, matchAt]
  | cons c rest ih =>
    constructor
    · intro h i
      cases hm : matchAt (c :: rest) with
      | some m2 => simp [findFirst, hm] at h
      | none =>
        have h2 : findFirst rest = none := by
          simp only [findFirst, hm] at h
          exact h
        match i with
        | 0 => exact hm
        | i2 + 1 => simpa using ih.mp h2 i2
    · intro h
      have h0 := h 0
      simp only [List.drop_zero] at h0
      simp only [findFirst, h0]
      exact ih.mpr (fun i => by simpa using h (i + 1))

theorem find_version_some_token (t s : String) (h : find_version t = some s) :
    ∃ i, (∀ j, j < i → ¬ TokenAt t.toList j) ∧ TokenFrom (t.toList.drop i) s.toList := by
  cases hf : findFirst t.toList with
  | none =>
    have hnone : find_version t = none := by
      unfold find_version
      rw [hf]
    rw [hnone] at h
    cases h
  | some m =>
    have hs : String.mk ((m.drop 1).dropLast) = s := by
      have hsome : find_version t = some (String.mk ((m.drop 1).dropLast)) := by
        unfold find_version
        rw [hf]
      rw [hsome] at h
      exact Option.some.inj h
    obtain ⟨i, hi, hbefore⟩ := findFirst_some t.toList m hf
    obtain ⟨s2, htok, hm⟩ := matchAt_some _ m hi
    have hsl : s.toList = s2 := by
      rw [← hs]
      show (m.drop 1).dropLast = s2
      subst hm
      simp
    rw [hsl]
    refine ⟨i, ?_, htok⟩
    rintro j hj ⟨s3, hs3⟩
    have hcomp := matchAt_complete _ s3 hs3
    rw [hbefore j hj] at hcomp
    cases hcomp

theorem find_version_none_token (t : String) :
    find_version t = none ↔ ∀ i, ¬ TokenAt t.toList i := by
  have hbridge : (∀ i, matchAt (t.toList.drop i) = none) ↔ (∀ i, ¬ TokenAt t.toList i) := by
    constructor
    · rintro h i ⟨s3, hs3⟩
      have hcomp := matchAt_complete _ s3 hs3
      rw [h i] at hcomp
      cases hcomp
    · intro h i
      cases hm : matchAt (t.toList.drop i) with
      | none => rfl
      | some m =>
        obtain ⟨s2, htok, _⟩ := matchAt_some _ m hm
        exact absurd ⟨s2, htok⟩ (h i)
  constructor
  · intro h
    apply hbridge.mp
    apply (findFirst_none t.toList).mp
    cases hf : findFirst t.toList with
    | none => rfl
    | some m =>
      have hsome : find_version t = some (String.mk ((m.drop 1).dropLast)) := by
        unfold find_version
        rw [hf]
      rw [hsome] at h
      cases h
  · intro h
    have hf : findFirst t.toList = none := (findFirst_none t.toList).mpr (hbridge.mpr h)
    unfold find_version
    rw [hf]

/-- C8: find_version returns the leftmost occurrence of a token of the
exact shape v<digits>.<digits>.<digits><space> in the page text, stripped
of its leading 'v' and trailing space (no other numeric-looking substring
matches); it returns none — surfaced by get_latest_version as the
not-found failure — precisely when no such token occurs. -/
theorem find_version_spec (t : String) :
    (∀ s : String, find_version t = some s →
      ∃ i, (∀ j, j < i → ¬ TokenAt t.toList j) ∧ TokenFrom (t.toList.drop i) s.toList)
    ∧ (find_version t = none ↔ ∀ i, ¬ TokenAt t.toList i)
    ∧ (find_version t = none → get_latest_version (.page t) = .findErr) :=
  ⟨fun s h => find_version_some_token t s h,
   find_version_none_token t,
   fun h => by simp [get_latest_version, h]⟩

/-- C8 witness: on a concrete page the returned token is a leftmost
stripped match, and a page with no token resolves to the not-found
failure. -/
theorem find_version_spec_witness :
    (∃ i, (∀ j, j < i → ¬ TokenAt ("deno v1.2.3 ok" : String).toList j)
      ∧ TokenFrom (("deno v1.2.3 ok" : String).toList.drop i) ("1.2.3" : String).toList)
    ∧ get_latest_version (.page "nothing here") = .findErr :=
  ⟨(find_version_spec "deno v1.2.3 ok").1 "1.2.3" (by decide),
   (find_version_spec "nothing here").2.2 (by decide)⟩

theorem digit_ne (c x : Char) (hc : c.isDigit = true) (hx : x.isDigit = false) : c ≠ x := by
  intro he
  rw [he, hx] at hc
  cases hc

theorem splitFirstOn_no_sep (sep : Char) (cs : List Char) (h : ∀ c ∈ cs, c ≠ sep) :
    splitFirstOn sep cs = (cs, none) := by
  induction cs with
  | nil => rfl
  | cons c r ih =>
    have hc : c ≠ sep := h c (List.mem_cons_self _ _)
    have hr := ih (fun a ha => h a (List.mem_cons_of_mem _ ha))
    simp [splitFirstOn, hc, hr]

theorem splitOnChar_no_sep (sep : Char) (a : List Char) (h : ∀ c ∈ a, c ≠ sep) :
    splitOnChar sep a = [a] := by
  induction a with
  | nil => rfl
  | cons c r ih =>
    have hc : c ≠ sep := h c (List.mem_cons_self _ _)
    have hr := ih (fun x hx => h x (List.mem_cons_of_mem _ hx))
    simp [splitOnChar, hc, hr]

theorem splitOnChar_append (sep : Char) (a : List Char) (r : List Char)
    (h : ∀ c ∈ a, c ≠ sep) :
    splitOnChar sep (a ++ sep :: r) = a :: splitOnChar sep r := by
  induction a with
  | nil => simp [splitOnChar]
  | cons c cs ih =>
    have hc : c ≠ sep := h c (List.mem_cons_self _ _)
    have hcs := ih (fun x hx => h x (List.mem_cons_of_mem _ hx))
    simp [splitOnChar, hc, hcs]

theorem parseNatL_isSome (d : List Char) (hne : d ≠ []) (hd : ∀ c ∈ d, c.isDigit = true) :
    (parseNatL d).isSome = true := by
  simp [parseNatL, hne, List.all_eq_true.mpr hd]

theorem semver_shape_isSome (d1 d2 d3 : List Char)
    (h1 : DigitsNE d1) (h2 : DigitsNE d2) (h3 : DigitsNE d3) :
    (semver_parseL (d1 ++ '.' :: d2 ++ '.' :: d3)).isSome = true := by
  have hdigdot : ∀ c ∈ d1 ++ '.' :: d2 ++ '.' :: d3, c.isDigit = true ∨ c = '.' := by
    intro c hc
    simp [List.mem_append, List.mem_cons] at hc
    rcases hc with hc | hc | hc | hc | hc
    · exact Or.inl (h1.2 c hc)
    · exact Or.inr hc
    · exact Or.inl (h2.2 c hc)
    · exact Or.inr hc
    · exact Or.inl (h3.2 c hc)
  have hnop : ∀ c ∈ d1 ++ '.' :: d2 ++ '.' :: d3, c ≠ '+' := by
    intro c hc
    rcases hdigdot c hc with hd | he
    · exact digit_ne c '+' hd (by decide)
    · subst he
      decide
  have hnom : ∀ c ∈ d1 ++ '.' :: d2 ++ '.' :: d3, c ≠ '-' := by
    intro c hc
    rcases hdigdot c hc with hd | he
    · exact digit_ne c '-' hd (by decide)
    · subst he
      decide
  have hnd1 : ∀ c ∈ d1, c ≠ '.' := fun c hc => digit_ne c '.' (h1.2 c hc) (by decide)
  have hnd2 : ∀ c ∈ d2, c ≠ '.' := fun c hc => digit_ne c '.' (h2.2 c hc) (by decide)
  have hnd3 : ∀ c ∈ d3, c ≠ '.' := fun c hc => digit_ne c '.' (h3.2 c hc) (by decide)
  have hsplit1 : splitFirstOn '+' (d1 ++ '.' :: d2 ++ '.' :: d3)
      = (d1 ++ '.' :: d2 ++ '.' :: d3, none) := splitFirstOn_no_sep _ _ hnop
  have hsplit2 : splitFirstOn '-' (d1 ++ '.' :: d2 ++ '.' :: d3)
      = (d1 ++ '.' :: d2 ++ '.' :: d3, none) := splitFirstOn_no_sep _ _ hnom
  have hsoc : splitOnChar '.' (d1 ++ '.' :: (d2 ++ '.' :: d3)) = [d1, d2, d3] := by
    rw [splitOnChar_append '.' d1 (d2 ++ '.' :: d3) hnd1,
      splitOnChar_append '.' d2 d3 hnd2, splitOnChar_no_sep '.' d3 hnd3]
  obtain ⟨x1, hx1⟩ := Option.isSome_iff_exists.mp (parseNatL_isSome d1 h1.1 h1.2)
  obtain ⟨x2, hx2⟩ := Option.isSome_iff_exists.mp (parseNatL_isSome d2 h2.1 h2.2)
  obtain ⟨x3, hx3⟩ := Option.isSome_iff_exists.mp (parseNatL_isSome d3 h3.1 h3.2)
  unfold semver_parseL
  simp only [hsplit1, hsplit2]
  simp [semverFromParts, hsoc, hx1, hx2, hx3]

/-- C10: every string find_version returns has the shape
digits.digits.digits (the regex match stripped of exactly its leading 'v'
and trailing space); the spec-modelled semver parse accepts every such
string, so get_latest_version never reaches its unwrap panic. -/
theorem find_version_result_parses :
    (∀ t s : String, find_version t = some s →
      (∃ d1 d2 d3, DigitsNE d1 ∧ DigitsNE d2 ∧ DigitsNE d3
        ∧ s.toList = d1 ++ '.' :: d2 ++ '.' :: d3)
      ∧ (semver_parse s).isSome = true)
    ∧ ∀ r, get_latest_version r ≠ .panicUnwrap := by
  have hshape : ∀ t s : String, find_version t = some s →
      ∃ d1 d2 d3, DigitsNE d1 ∧ DigitsNE d2 ∧ DigitsNE d3
        ∧ s.toList = d1 ++ '.' :: d2 ++ '.' :: d3 := by
    intro t s h
    obtain ⟨i, _, htok⟩ := find_version_some_token t s h
    obtain ⟨d1, d2, d3, rest, h1, h2, h3, hs, _⟩ := htok
    exact ⟨d1, d2, d3, h1, h2, h3, hs⟩
  have hparse : ∀ t s : String, find_version t = some s → (semver_parse s).isSome = true := by
    intro t s h
    obtain ⟨d1, d2, d3, h1, h2, h3, hs⟩ := hshape t s h
    show (semver_parseL s.toList).isSome = true
    rw [hs]
    exact semver_shape_isSome d1 d2 d3 h1 h2 h3
  refine ⟨fun t s h => ⟨hshape t s h, hparse t s h⟩, ?_⟩
  intro r
  cases r with
  | transportError => simp [get_latest_version]
  | page t =>
    cases hf : find_version t with
    | none => simp [get_latest_version, hf]
    | some s =>
      obtain ⟨ver, hv⟩ := Option.isSome_iff_exists.mp (hparse t s hf)
      simp [get_latest_version, hf, hv]

/-- C10 witness: the concrete token 1.2.3 parses, and resolving against a
concrete page does not panic. -/
theorem find_version_result_parses_witness :
    (semver_parse "1.2.3").isSome = true
    ∧ get_latest_version (.page "deno v1.2.3 ok") ≠ .panicUnwrap :=
  ⟨(find_version_result_parses.1 "deno v1.2.3 ok" "1.2.3" (by decide)).2,
   find_version_result_parses.2 (.page "deno v1.2.3 ok")⟩

end Dvm
